import Mathlib

/-!
Verification development for the `json_dto` header library
(`include/json_dto.h`): a compile-time object/JSON mapping layer built on a
rapidjson-style value tree.  We shallowly embed the JSON value model and the
`adapter<T>::get` / `adapter<T>::set` conversion strategies, the
`json_reader` / `json_writer` field walkers, and a closed universe of
wire-representable shapes, and prove the behavioural properties of the
library against these definitions.
-/

namespace JsonDto

/-- A rapidjson value node: null, bool, number (integral numbers only;
floating point is out of scope of this development), string, array, or
object.  Objects are ordered member lists that may carry duplicate names,
exactly as in rapidjson. -/
inductive JNode where
  | jnull
  | jbool (b : Bool)
  | jnum (n : Int)
  | jstr (s : String)
  | jarr (elems : List JNode)
  | jobj (members : List (String × JNode))

/-- First value stored under key `k` in an association list
(`rapidjson::Value::FindMember` semantics for objects; also the lookup of
the `std::map`/`std::unordered_map` model). -/
def lookupKey {κ : Type} {α : Type} [DecidableEq κ] : List (κ × α) → κ → Option α
  | [], _ => none
  | (k, v) :: rest, k' => if k = k' then some v else lookupKey rest k'

/-- `m.emplace(key, value)` of the standard associative containers: inserts
only when no entry with the key exists; an existing entry is left untouched. -/
def emplace {κ : Type} {α : Type} [DecidableEq κ] (m : List (κ × α)) (k : κ) (v : α) :
    List (κ × α) :=
  match lookupKey m k with
  | some _ => m
  | none => m ++ [(k, v)]

/-- `rapidjson::Value::IsString()`. -/
def isStringNode : JNode → Bool
  | .jstr _ => true
  | _ => false

/-- `rapidjson::Value::FindMember`: first member with the given name. -/
def findMember (ms : List (String × JNode)) (name : String) : Option JNode :=
  lookupKey ms name

/-- `rapidjson::Value::AddMember`: appends a member, never deduplicating. -/
def addMember (ms : List (String × JNode)) (name : String) (v : JNode) :
    List (String × JNode) :=
  ms ++ [(name, v)]

/-! ### Primitive adapters (`ADAPTER` macro instances and `adapter<std::string>`) -/

/-- `adapter<int>::get`: requires `IsInt()` (value representable as a 32-bit
signed integer), then `GetInt()`. -/
def intGet : JNode → Option Int
  | .jnum n => if -2147483648 ≤ n ∧ n < 2147483648 then some n else none
  | _ => none

/-- `adapter<int>::set`: `SetInt`. -/
def intSet (n : Int) : JNode := .jnum n

/-- `adapter<uint64_t>::get`: requires `IsUint64()` (value representable as an
unsigned 64-bit integer), then `GetUint64()`.  `size_t` (the default variant
indexer) goes through this adapter. -/
def uint64Get : JNode → Option Nat
  | .jnum n => if 0 ≤ n ∧ n < 18446744073709551616 then some n.toNat else none
  | _ => none

/-- `adapter<uint64_t>::set`: `SetUint64`. -/
def uint64Set (n : Nat) : JNode := .jnum (n : Int)

/-- `adapter<bool>::get`: requires `IsBool()`. -/
def boolGet : JNode → Option Bool
  | .jbool b => some b
  | _ => none

/-- `adapter<bool>::set`: `SetBool`. -/
def boolSet (b : Bool) : JNode := .jbool b

/-- `adapter<std::string>::get`: requires `IsString()`. -/
def stringGet : JNode → Option String
  | .jstr s => some s
  | _ => none

/-- `adapter<std::string>::set`: `SetString`. -/
def stringSet (s : String) : JNode := .jstr s

/-! ### Fixed bitset adapter (`adapter<BS>` for `bitset_like BS`)

A `std::bitset<W>` is modelled as a `List Bool` of length `W`, least
significant bit first. -/

/-- `std::bitset::to_ullong` (the encoder only calls it when the width is at
most 64, so no overflow can occur). -/
def bitsToNat : List Bool → Nat
  | [] => 0
  | b :: rest => (if b then 1 else 0) + 2 * bitsToNat rest

/-- `std::bitset<W>{ unsigned long long }`: keeps the low `W` bits. -/
def natToBits (w n : Nat) : List Bool :=
  match w with
  | 0 => []
  | w' + 1 => (n % 2 == 1) :: natToBits w' (n / 2)

/-- `std::bitset::to_string`: most significant bit first, length `W`. -/
def bitsToString (bits : List Bool) : String :=
  String.mk (bits.reverse.map (fun b => if b then '1' else '0'))

/-- Bit content of `std::bitset<W>{ str, len }` for a valid digit string:
with `M = min W len`, bit `i` (for `i < M`) comes from character `M - 1 - i`,
and higher bits are zero. -/
def stringToBits (w : Nat) (cs : List Char) : List Bool :=
  (List.range w).map (fun i =>
    if i < min w cs.length then cs.getD (min w cs.length - 1 - i) '0' == '1' else false)

/-- `std::bitset<W>{ str, len }`: throws `std::invalid_argument` (modelled as
`none`) when any character is not `'0'`/`'1'`, otherwise constructs from the
characters. -/
def bitsetFromString (w : Nat) (s : String) : Option (List Bool) :=
  if s.data.all (fun c => c == '0' || c == '1') then some (stringToBits w s.data)
  else none

/-- `adapter<BS>::get` for a bitset of width `w`: a string node is always
attempted through the string constructor; otherwise, when `w ≤ 64`, a
`Uint64` node goes through the integer constructor; every other node fails. -/
def bitsetGet (w : Nat) : JNode → Option (List Bool)
  | .jstr s => bitsetFromString w s
  | v =>
    if w ≤ 64 then
      match uint64Get v with
      | some u => some (natToBits w u)
      | none => none
    else none

/-- `adapter<BS>::set` for a bitset of width `w`: `SetUint64(to_ullong())`
when `w ≤ 64`, else `SetString(to_string())`. -/
def bitsetSet (w : Nat) (bits : List Bool) : JNode :=
  if w ≤ 64 then .jnum (Int.ofNat (bitsToNat bits)) else .jstr (bitsToString bits)

/-! ### Named enum adapter (`adapter<Enum>` with a declared name table)

The enum value is modelled by its ordinal.  The lazily-built
`std::unordered_map` from name to value is modelled as an association list
filled by `emplace` in table order (so, as in the source, a duplicated name
keeps its first ordinal). -/

/-- The loop body of the `name_to_val` initializer:
`for (size_t i = 0; auto name : names) res.emplace(name, (Enum)i++);`. -/
def buildNameMap : List String → Nat → List (String × Nat) → List (String × Nat)
  | [], _, acc => acc
  | n :: rest, i, acc => buildNameMap rest (i + 1) (emplace acc n i)

/-- `adapter<Enum>::convert`: look the name up in the lazily built map. -/
def enumConvert (names : List String) (s : String) : Option Nat :=
  lookupKey (buildNameMap names 0 []) s

/-- `adapter<Enum>::get` (named variant): read a string via the string
adapter, then convert; non-strings and unknown names fail. -/
def enumGet (names : List String) (v : JNode) : Option Nat :=
  match stringGet v with
  | none => none
  | some s => enumConvert names s

/-- `adapter<Enum>::set` (named variant): write `get_names()[ordinal]`.
Indexing past the table is undefined behaviour in the source; the model
returns `""` there. -/
def enumSet (names : List String) (i : Nat) : JNode :=
  .jstr (names.getD i "")

/-! ### Optional adapter (`adapter<std::optional<T>>`)

The decode branch of the source reads `value.reset(std::move(x))`, which is
ill-formed C++ (`std::optional::reset` takes no arguments); the evident
intent, matching the encoder and the spec, is to store the decoded value as
the present state.  The model below follows that intent. -/

/-- `adapter<std::optional<T>>::get`, parameterised by the inner adapter:
a null node yields the absent state; any other node decodes the inner type,
and an inner failure propagates. -/
def optionalGet {α : Type} (g : JNode → Option α) : JNode → Option (Option α)
  | .jnull => some none
  | v => (g v).map some

/-- `adapter<std::optional<T>>::set`: absent maps to null, present delegates
to the inner adapter. -/
def optionalSet {α : Type} (e : α → JNode) : Option α → JNode
  | none => .jnull
  | some x => e x

/-! ### Array-like adapters (`adapter<A>` for `array_like A`) -/

/-- Element-wise decode of a JSON array (the success/failure content of the
`for (i …) if (!adapter::get(arr[i], value[i])) return false;` loop of the
resizable branch, where the destination was just resized to the wire
length). -/
def mapOpt {α : Type} (g : JNode → Option α) : List JNode → Option (List α)
  | [] => some []
  | e :: rest =>
    match g e with
    | none => none
    | some x => (mapOpt g rest).map (fun xs => x :: xs)

/-- The element loop writing decoded elements into slots `i, i+1, …` of an
existing backing sequence (the non-resizable branch, and the backing array
of `array_with_size`). -/
def decodeElemsInto {α : Type} (g : JNode → Option α) :
    List JNode → List α → Nat → Option (List α)
  | [], dest, _ => some dest
  | e :: rest, dest, i =>
    match g e with
    | none => none
    | some x => decodeElemsInto g rest (dest.set i x) (i + 1)

/-- `adapter<A>::get` for a non-resizable, fillable destination
(`std::array<T, N>`, modelled as a list of length `N`): fails when the wire
array is longer than the capacity, otherwise fills with the element default
and decodes element-wise. -/
def fixedArrayGet {α : Type} (g : JNode → Option α) (dflt : α) (dest : List α) :
    JNode → Option (List α)
  | .jarr elems =>
    if dest.length < elems.length then none
    else decodeElemsInto g elems (List.replicate dest.length dflt) 0
  | _ => none

/-- Result of an adapter `get` that can also throw a `parse_exception`
(`bool` return plus C++ exceptions). -/
inductive GetRes (α : Type) where
  | thrown (msg : String)
  | fls
  | ok (val : α)
deriving DecidableEq

/-- `array_with_size<T, N>`: a fixed backing array plus a tracked size. -/
structure AwsState (α : Type) where
  arr : List α
  size : Nat
deriving DecidableEq

/-- `array_with_size::resize`: throws `parse_exception("Too large array")`
when the requested size exceeds the capacity `N`. -/
def awsResize {α : Type} (N : Nat) (st : AwsState α) (sz : Nat) : GetRes (AwsState α) :=
  if N < sz then .thrown "Too large array" else .ok { st with size := sz }

/-- `adapter<A>::get` for `array_with_size<T, N>` (which satisfies
`resizable`, so it takes the clear-then-resize branch): `clear()`,
`resize(arr.Size())` (which may throw), then element-wise decode into the
backing array. -/
def awsGet {α : Type} (g : JNode → Option α) (N : Nat) (st : AwsState α) :
    JNode → GetRes (AwsState α)
  | .jarr elems =>
    match awsResize N { st with size := 0 } elems.length with
    | .thrown msg => .thrown msg
    | .fls => .fls
    | .ok st2 =>
      match decodeElemsInto g elems st2.arr 0 with
      | none => .fls
      | some arr2 => .ok { arr := arr2, size := st2.size }
  | _ => .fls

/-- `adapter<A>::set`: emits the elements in container order into a fresh
JSON array. -/
def arrayLikeSet {α : Type} (e : α → JNode) (xs : List α) : JNode :=
  .jarr (xs.map e)

/-! ### Map-like adapter (`adapter<M>` for `map_like M`)

The destination container is modelled as an association list with unique
keys; `emplace` is insert-if-absent, as for `std::map`/`std::unordered_map`. -/

/-- The member loop of `adapter<M>::get`: for each wire member decode the
value, then the key (the member name is a string node, handed to the key
type's own adapter), and `emplace` into the destination. -/
def mapMembersGet {κ β : Type} [DecidableEq κ]
    (kg : JNode → Option κ) (g : JNode → Option β) :
    List (String × JNode) → List (κ × β) → Option (List (κ × β))
  | [], acc => some acc
  | (name, val) :: rest, acc =>
    match g val with
    | none => none
    | some item =>
      match kg (.jstr name) with
      | none => none
      | some key => mapMembersGet kg g rest (emplace acc key item)

/-- `Container::clear()`: removes every element of the destination. -/
def clearContainer {γ : Type} (_dest : List γ) : List γ := []

/-- `adapter<M>::get`: requires an object node, clears the destination
(`value.clear()`), then runs the member loop on the emptied container. -/
def mapLikeGet {κ β : Type} [DecidableEq κ]
    (kg : JNode → Option κ) (g : JNode → Option β)
    (dest : List (κ × β)) : JNode → Option (List (κ × β))
  | .jobj ms => mapMembersGet kg g ms (clearContainer dest)
  | _ => none

/-! ### Tagged-union adapter (`adapter<std::variant<T...>>`)

Parametric model: each alternative is given by a flag saying whether it is
`struct_like` together with its decoder into a common payload type; a decoded
variant value is the pair of the selected index and the payload. -/

/-- `load_one<N>`: a struct-like alternative decodes from the whole object;
any other alternative requires the sibling `"value"` member and decodes it. -/
def loadOne {α : Type} (isStruct : Bool) (dec : JNode → Option α)
    (node : JNode) (ms : List (String × JNode)) : Option α :=
  if isStruct then dec node
  else
    match findMember ms "value" with
    | none => none
    | some pv => dec pv

/-- `adapter<std::variant<T...>>::get`: requires an object, reads the
`"type"` member through the indexer adapter (`size_t`, i.e. `uint64_t`), and
dispatches to the alternative whose index matches; a missing or unparseable
discriminant, or one matching no alternative, fails. -/
def variantGet {α : Type} (alts : List (Bool × (JNode → Option α))) :
    JNode → Option (Nat × α)
  | .jobj ms =>
    match findMember ms "type" with
    | none => none
    | some tv =>
      match uint64Get tv with
      | none => none
      | some idx =>
        match alts.get? idx with
        | none => none
        | some alt => (loadOne alt.1 alt.2 (.jobj ms) ms).map (fun a => (idx, a))
  | _ => none

/-! ### Struct-with-fields encode and the field walker -/

/-- `adapter<T>::set` for a `struct_like` type whose serialization routine
performs the writer calls `io(name_i, field_i)` in order, each of which
appends the encoded field via `AddMember`: a non-object destination is reset
with `SetObject()`, an object destination keeps its existing members. -/
def structLikeSet (fields : List (String × JNode)) : JNode → JNode
  | .jobj ms => .jobj (fields.foldl (fun acc f => addMember acc f.1 f.2) ms)
  | _ => .jobj (fields.foldl (fun acc f => addMember acc f.1 f.2) [])

/-- `adapter<std::variant<T...>>::set` for a struct-like alternative of
encoded fields `fields` at index `i`: `SetObject()`, `AddMember("type", i)`,
then the alternative's own `struct_like` set on the same node. -/
def variantSetStruct (i : Nat) (fields : List (String × JNode)) : JNode :=
  structLikeSet fields (.jobj (addMember [] "type" (uint64Set i)))

/-- `json_reader::operator()(name, value)` (required field), with the
enclosing type name already recorded by `operator()(const char*)`:
missing member and failing adapter throw the two `parse_exception`s. -/
def fieldReadRequired {α : Type} (tyName fname : String) (dec : JNode → Option α)
    (ms : List (String × JNode)) : Except String α :=
  match findMember ms fname with
  | none => .error ("Field not found: " ++ fname ++ " in type " ++ tyName)
  | some v =>
    match dec v with
    | none => .error ("Cannot parse field: " ++ fname ++ " in type " ++ tyName)
    | some x => .ok x

/-- `json_writer::operator()(name, value)` (required field): encode and
`AddMember`, unconditionally. -/
def fieldWriteRequired {α : Type} (fname : String) (enc : α → JNode) (value : α)
    (ms : List (String × JNode)) : List (String × JNode) :=
  addMember ms fname (enc value)

/-- `json_reader::operator()(name, value, default_value)`: an absent member
assigns the default; a present member decodes, and a failing adapter throws. -/
def fieldReadDefault {α : Type} (tyName fname : String) (dec : JNode → Option α)
    (dflt : α) (ms : List (String × JNode)) : Except String α :=
  match findMember ms fname with
  | none => .ok dflt
  | some v =>
    match dec v with
    | none => .error ("Cannot parse field: " ++ fname ++ " in type " ++ tyName)
    | some x => .ok x

/-- `json_writer::operator()(name, value, default_value)`: when the current
value equals the default the member is omitted, otherwise it is encoded and
appended. -/
def fieldWriteDefault {α : Type} [DecidableEq α] (fname : String) (enc : α → JNode)
    (value dflt : α) (ms : List (String × JNode)) : List (String × JNode) :=
  if value = dflt then ms else addMember ms fname (enc value)

/-! ### A closed universe of wire-representable shapes

For the round-trip property we instantiate the adapter templates over a
closed universe of Shape Categories: 32-bit and unsigned 64-bit integers,
booleans, strings, fixed bitsets, named enums, optionals, resizable
array-like containers (`std::vector`), string-keyed map-like containers, and
tagged unions whose alternatives are drawn from the same universe (hence
non-`struct_like`, so they use the `"value"` payload form).  Floating-point
primitives, raw/owning pointers and struct-with-fields types are outside the
universe. -/

/-- Compile-time shape of a user type. -/
inductive Shape where
  | sInt
  | sUint64
  | sBool
  | sStr
  | sBitset (w : Nat)
  | sEnum (names : List String)
  | sOptional (s : Shape)
  | sVec (s : Shape)
  | sMap (s : Shape)
  | sVariant (alts : List Shape)

/-- Run-time values of universe types (untyped; `VTyB` is the typing). -/
inductive V where
  | vInt (n : Int)
  | vUint (n : Nat)
  | vBool (b : Bool)
  | vStr (s : String)
  | vBits (bits : List Bool)
  | vEnum (i : Nat)
  | vNone
  | vSome (x : V)
  | vVec (xs : List V)
  | vMap (entries : List (String × V))
  | vVar (i : Nat) (x : V)

mutual

/-- `adapter<T>::set` over the universe: each case is the corresponding
adapter's encoder. -/
def encodeU : Shape → V → JNode
  | .sInt, .vInt n => intSet n
  | .sUint64, .vUint n => uint64Set n
  | .sBool, .vBool b => boolSet b
  | .sStr, .vStr s => stringSet s
  | .sBitset w, .vBits bits => bitsetSet w bits
  | .sEnum names, .vEnum i => enumSet names i
  | .sOptional _, .vNone => .jnull
  | .sOptional s, .vSome x => encodeU s x
  | .sVec s, .vVec xs => .jarr (encodeList s xs)
  | .sMap s, .vMap es => .jobj (encodeMembers s es)
  | .sVariant alts, .vVar i x =>
    .jobj [("type", uint64Set i), ("value", encodeAlt alts i x)]
  | _, _ => .jnull

/-- Encoder of the variant alternative at the given index (`std::visit`
selects the runtime alternative; universe alternatives are never
`struct_like`, so the payload form is used). -/
def encodeAlt : List Shape → Nat → V → JNode
  | [], _, _ => .jnull
  | alt :: _, 0, x => encodeU alt x
  | _ :: rest, i + 1, x => encodeAlt rest i x

/-- Element loop of the array-like encoder. -/
def encodeList : Shape → List V → List JNode
  | _, [] => []
  | s, x :: rest => encodeU s x :: encodeList s rest

/-- Member loop of the map-like encoder (container order). -/
def encodeMembers : Shape → List (String × V) → List (String × JNode)
  | _, [] => []
  | s, (k, x) :: rest => (k, encodeU s x) :: encodeMembers s rest

end

mutual

/-- `adapter<T>::get` over the universe: each case is the corresponding
adapter's decoder (`none` models a `false` return). -/
def decodeU : Shape → JNode → Option V
  | .sInt, v => (intGet v).map .vInt
  | .sUint64, v => (uint64Get v).map .vUint
  | .sBool, v => (boolGet v).map .vBool
  | .sStr, v => (stringGet v).map .vStr
  | .sBitset w, v => (bitsetGet w v).map .vBits
  | .sEnum names, v => (enumGet names v).map .vEnum
  | .sOptional s, v =>
    match v with
    | .jnull => some .vNone
    | _ => (decodeU s v).map .vSome
  | .sVec s, v =>
    match v with
    | .jarr es => (decodeList s es).map .vVec
    | _ => none
  | .sMap s, v =>
    match v with
    | .jobj ms => (decodeMems s ms []).map .vMap
    | _ => none
  | .sVariant alts, v =>
    match v with
    | .jobj ms =>
      match findMember ms "type" with
      | none => none
      | some tv =>
        match uint64Get tv with
        | none => none
        | some idx => (decodeAlts alts idx ms).map (.vVar idx)
    | _ => none

/-- The `load`/`load_one` fold of the variant decoder: walk the alternatives
down to the discriminant index; an index past the end fails, and the selected
(non-`struct_like`) alternative requires the `"value"` member. -/
def decodeAlts : List Shape → Nat → List (String × JNode) → Option V
  | [], _, _ => none
  | alt :: _, 0, ms =>
    match findMember ms "value" with
    | none => none
    | some pv => decodeU alt pv
  | _ :: rest, i + 1, ms => decodeAlts rest i ms

/-- Element loop of the resizable array-like decoder (the destination is
cleared and resized to the wire length, then decoded element-wise). -/
def decodeList : Shape → List JNode → Option (List V)
  | _, [] => some []
  | s, e :: rest =>
    match decodeU s e with
    | none => none
    | some x => (decodeList s rest).map (fun xs => x :: xs)

/-- Member loop of the map-like decoder: decode the value, then the key, and
`emplace` into the (cleared) destination. -/
def decodeMems : Shape → List (String × JNode) → List (String × V) →
    Option (List (String × V))
  | _, [], acc => some acc
  | s, (name, val) :: rest, acc =>
    match decodeU s val with
    | none => none
    | some item =>
      match stringGet (.jstr name) with
      | none => none
      | some key => decodeMems s rest (emplace acc key item)

end

/-- Unique keys, checked front to back (the invariant of the standard
associative containers that model map-like destinations). -/
def keysNodupB {κ α : Type} [DecidableEq κ] : List (κ × α) → Bool
  | [] => true
  | (k, _) :: rest => (lookupKey rest k).isNone && keysNodupB rest

mutual

/-- Typing of universe values: the value is an in-memory value of the given
shape (in particular, primitive values fit the C++ type's range, a bitset
value has exactly the declared width, an enum ordinal indexes the name table,
a map has unique keys, and a variant index selects an alternative). -/
def VTyB : Shape → V → Bool
  | .sInt, .vInt n => decide (-2147483648 ≤ n) && decide (n < 2147483648)
  | .sUint64, .vUint n => decide (n < 18446744073709551616)
  | .sBool, .vBool _ => true
  | .sStr, .vStr _ => true
  | .sBitset w, .vBits bits => bits.length == w
  | .sEnum names, .vEnum i => decide (i < names.length)
  | .sOptional _, .vNone => true
  | .sOptional s, .vSome x => VTyB s x
  | .sVec s, .vVec xs => VTyList s xs
  | .sMap s, .vMap es => keysNodupB es && VTyMems s es
  | .sVariant alts, .vVar i x => VTyAlt alts i x
  | _, _ => false

/-- Typing of a variant payload at a given alternative index. -/
def VTyAlt : List Shape → Nat → V → Bool
  | [], _, _ => false
  | alt :: _, 0, x => VTyB alt x
  | _ :: rest, i + 1, x => VTyAlt rest i x

/-- Typing of array-like elements. -/
def VTyList : Shape → List V → Bool
  | _, [] => true
  | s, x :: rest => VTyB s x && VTyList s rest

/-- Typing of map-like entry values. -/
def VTyMems : Shape → List (String × V) → Bool
  | _, [] => true
  | s, (_, x) :: rest => VTyB s x && VTyMems s rest

end

/-- No duplicates, checked front to back (sanity of a declared enum name
table). -/
def namesNodupB : List String → Bool
  | [] => true
  | n :: rest => !(rest.contains n) && namesNodupB rest

mutual

/-- Well-formedness of a shape: enum name tables are duplicate-free, variant
alternative counts fit `size_t`, recursively. -/
def shapeWF : Shape → Bool
  | .sEnum names => namesNodupB names
  | .sOptional s => shapeWF s
  | .sVec s => shapeWF s
  | .sMap s => shapeWF s
  | .sVariant alts => decide (alts.length ≤ 18446744073709551616) && shapeWFList alts
  | _ => true

/-- Well-formedness of every alternative of a variant. -/
def shapeWFList : List Shape → Bool
  | [] => true
  | s :: rest => shapeWF s && shapeWFList rest

end

mutual

/-- No present optional directly contains an absent optional.  A value
violating this (`some none` over `std::optional<std::optional<T>>`) encodes
to `null`, which decodes back to the absent state, so the round-trip cannot
restore it. -/
def noSomeNone : V → Bool
  | .vSome .vNone => false
  | .vSome x => noSomeNone x
  | .vVec xs => noSomeNoneList xs
  | .vMap es => noSomeNoneMems es
  | .vVar _ x => noSomeNone x
  | _ => true

/-- `noSomeNone` on every element. -/
def noSomeNoneList : List V → Bool
  | [] => true
  | x :: rest => noSomeNone x && noSomeNoneList rest

/-- `noSomeNone` on every entry value. -/
def noSomeNoneMems : List (String × V) → Bool
  | [] => true
  | (_, x) :: rest => noSomeNone x && noSomeNoneMems rest

end

/-- Index of the first occurrence of `s` (proof-side helper used to
characterise the enum name lookup). -/
def firstIdx (s : String) : List String → Option Nat
  | [] => none
  | n :: rest => if n = s then some 0 else (firstIdx s rest).map (fun j => j + 1)

/-! ### Association-list lemmas -/

theorem lookupKey_append {κ α : Type} [DecidableEq κ] (l1 l2 : List (κ × α)) (k : κ) :
    lookupKey (l1 ++ l2) k =
      match lookupKey l1 k with
      | some v => some v
      | none => lookupKey l2 k := by
  induction l1 with
  | nil => simp [lookupKey]
  | cons p rest ih =>
    obtain ⟨k0, v0⟩ := p
    by_cases h : k0 = k <;> simp [lookupKey, h, ih]

theorem lookupKey_eq_none_iff {κ α : Type} [DecidableEq κ] (l : List (κ × α)) (k : κ) :
    lookupKey l k = none ↔ ∀ p ∈ l, p.1 ≠ k := by
  induction l with
  | nil => simp [lookupKey]
  | cons p rest ih =>
    obtain ⟨k0, v0⟩ := p
    by_cases h : k0 = k <;> simp [lookupKey, h, ih]

theorem emplace_of_absent {κ α : Type} [DecidableEq κ] (m : List (κ × α)) (k : κ) (v : α)
    (h : lookupKey m k = none) : emplace m k v = m ++ [(k, v)] := by
  simp [emplace, h]

theorem emplace_of_present {κ α : Type} [DecidableEq κ] (m : List (κ × α)) (k : κ) (v w : α)
    (h : lookupKey m k = some w) : emplace m k v = m := by
  simp [emplace, h]

theorem lookupKey_emplace_self {κ α : Type} [DecidableEq κ] (m : List (κ × α)) (k : κ) (v : α)
    (h : lookupKey m k = none) : lookupKey (emplace m k v) k = some v := by
  rw [emplace_of_absent m k v h, lookupKey_append, h]
  simp [lookupKey]

theorem lookupKey_emplace_ne {κ α : Type} [DecidableEq κ] (m : List (κ × α)) (k k' : κ) (v : α)
    (h : k ≠ k') : lookupKey (emplace m k v) k' = lookupKey m k' := by
  unfold emplace
  cases hm : lookupKey m k with
  | some w => rfl
  | none =>
    rw [lookupKey_append]
    cases hk : lookupKey m k' with
    | some w => rfl
    | none => simp [lookupKey, h]

theorem lookupKey_emplace_of_some {κ α : Type} [DecidableEq κ] (m : List (κ × α))
    (k k' : κ) (v w : α) (h : lookupKey m k' = some w) :
    lookupKey (emplace m k v) k' = some w := by
  unfold emplace
  cases hm : lookupKey m k with
  | some _ => exact h
  | none => rw [lookupKey_append, h]

theorem keysNodupB_append_singleton {κ α : Type} [DecidableEq κ] (m : List (κ × α))
    (k : κ) (v : α) (hnd : keysNodupB m = true) (habs : lookupKey m k = none) :
    keysNodupB (m ++ [(k, v)]) = true := by
  induction m with
  | nil => simp [keysNodupB, lookupKey]
  | cons p rest ih =>
    obtain ⟨k0, v0⟩ := p
    simp only [keysNodupB, Bool.and_eq_true, Option.isNone_iff_eq_none] at hnd
    simp only [lookupKey] at habs
    by_cases h0 : k0 = k
    · simp [h0] at habs
    · simp only [h0, if_false] at habs
      simp only [List.cons_append, keysNodupB, Bool.and_eq_true, Option.isNone_iff_eq_none]
      refine ⟨?_, ih hnd.2 habs⟩
      rw [List.append_eq, lookupKey_append, hnd.1]
      simp only [lookupKey, ite_eq_right_iff]
      intro hk
      exact absurd hk.symm h0

theorem keysNodupB_emplace {κ α : Type} [DecidableEq κ] (m : List (κ × α)) (k : κ) (v : α)
    (hnd : keysNodupB m = true) : keysNodupB (emplace m k v) = true := by
  unfold emplace
  cases hm : lookupKey m k with
  | some _ => exact hnd
  | none => exact keysNodupB_append_singleton m k v hnd hm

/-! ### C9: the optional adapter -/

/-- **C9.** For `std::optional<T>`: decoding a null node yields the absent
state; decoding any non-null node decodes the inner `T` into the present
state, an inner failure propagating as the optional's failure; encoding an
absent optional yields null, and encoding a present optional delegates to
`T`'s encoder.  (Proved of the intended decode semantics; the shipped decode
line `value.reset(std::move(x))` is ill-formed C++, see the claim record.) -/
theorem optional_adapter_spec {α : Type} (g : JNode → Option α) (e : α → JNode)
    (v : JNode) (hv : v ≠ JNode.jnull) (x : α) :
    optionalGet g JNode.jnull = some none
    ∧ optionalGet g v = (g v).map some
    ∧ optionalSet e none = JNode.jnull
    ∧ optionalSet e (some x) = e x := by
  refine ⟨rfl, ?_, rfl, rfl⟩
  cases v <;> simp [optionalGet] at hv ⊢

/-- Witness for C9 at the int adapter. -/
theorem optional_adapter_spec_witness :
    optionalGet intGet JNode.jnull = some none
    ∧ optionalGet intGet (.jnum 3) = (intGet (.jnum 3)).map some
    ∧ optionalSet intSet none = JNode.jnull
    ∧ optionalSet intSet (some 5) = intSet 5 :=
  optional_adapter_spec intGet intSet (.jnum 3) (by simp) 5

/-! ### C10: struct-like encode appends to an existing object -/

theorem foldl_addMember (fields ms : List (String × JNode)) :
    fields.foldl (fun acc f => addMember acc f.1 f.2) ms = ms ++ fields := by
  induction fields generalizing ms with
  | nil => simp
  | cons f rest ih =>
    rw [List.foldl_cons, ih]
    simp [addMember]

/-- **C10.** Encoding a struct-with-fields value into a node that is already
an object preserves every existing member and appends the struct's fields
without any duplicate check (member counts add up, so a repeated name yields
duplicate members); this is also what places a tagged union's inlined
alternative fields after the previously added `"type"` discriminant. -/
theorem structLike_set_preserves_members (ms fields : List (String × JNode)) :
    structLikeSet fields (.jobj ms) = .jobj (ms ++ fields)
    ∧ (∀ name : String,
        (ms ++ fields).countP (fun m => m.1 == name) =
          ms.countP (fun m => m.1 == name) + fields.countP (fun m => m.1 == name))
    ∧ (∀ i : Nat,
        variantSetStruct i fields = .jobj (("type", JNode.jnum (Int.ofNat i)) :: fields)) := by
  refine ⟨?_, ?_, ?_⟩
  · simp only [structLikeSet, foldl_addMember]
  · intro name
    simp [List.countP_append]
  · intro i
    have h1 : addMember [] "type" (uint64Set i) = [("type", JNode.jnum (Int.ofNat i))] := rfl
    rw [variantSetStruct, h1]
    simp only [structLikeSet, foldl_addMember]
    simp

/-! ### C5: defaulted fields -/

/-- **C5.** For a field declared with a default value: in write mode the
member is omitted exactly when the current value equals the default; in read
mode an absent member assigns exactly the declared default; hence encoding a
default-valued field and decoding the resulting object reproduces the
default. -/
theorem field_default_spec {α : Type} [DecidableEq α] (tyName fname : String)
    (dec : JNode → Option α) (enc : α → JNode) (value dflt : α)
    (ms : List (String × JNode)) (habs : findMember ms fname = none) :
    (fieldWriteDefault fname enc value dflt ms = ms ↔ value = dflt)
    ∧ fieldReadDefault tyName fname dec dflt ms = .ok dflt
    ∧ fieldReadDefault tyName fname dec dflt
        (fieldWriteDefault fname enc dflt dflt ms) = .ok dflt := by
  refine ⟨⟨?_, ?_⟩, ?_, ?_⟩
  · intro h
    by_contra hne
    rw [fieldWriteDefault, if_neg hne] at h
    have := congrArg List.length h
    simp [addMember] at this
  · intro h
    simp [fieldWriteDefault, h]
  · simp [fieldReadDefault, habs]
  · simp [fieldWriteDefault, fieldReadDefault, habs]

/-- Witness for C5: an int field named `"n"` with default `3`. -/
theorem field_default_spec_witness :
    (fieldWriteDefault "n" intSet (3 : Int) 3 [] = [] ↔ (3 : Int) = 3)
    ∧ fieldReadDefault "Dto" "n" intGet (3 : Int) [] = .ok 3
    ∧ fieldReadDefault "Dto" "n" intGet (3 : Int)
        (fieldWriteDefault "n" intSet (3 : Int) 3 []) = .ok 3 :=
  field_default_spec "Dto" "n" intGet intSet 3 3 [] (by simp [findMember, lookupKey])

/-! ### C6: required fields -/

/-- **C6.** For a required field: in read mode a missing member fails with a
"Field not found" error and a failing adapter fails with a "Cannot parse
field" error, both messages carrying the field name and the enclosing type
name (as character-level infixes); in write mode the field is always encoded
and inserted. -/
theorem field_required_spec {α : Type} (tyName fname : String) (dec : JNode → Option α)
    (enc : α → JNode) (value : α) (ms : List (String × JNode)) :
    (findMember ms fname = none →
      fieldReadRequired tyName fname dec ms =
        .error ("Field not found: " ++ fname ++ " in type " ++ tyName))
    ∧ (∀ v : JNode, findMember ms fname = some v → dec v = none →
      fieldReadRequired tyName fname dec ms =
        .error ("Cannot parse field: " ++ fname ++ " in type " ++ tyName))
    ∧ fname.data <:+: ("Field not found: " ++ fname ++ " in type " ++ tyName).data
    ∧ tyName.data <:+: ("Field not found: " ++ fname ++ " in type " ++ tyName).data
    ∧ fname.data <:+: ("Cannot parse field: " ++ fname ++ " in type " ++ tyName).data
    ∧ tyName.data <:+: ("Cannot parse field: " ++ fname ++ " in type " ++ tyName).data
    ∧ fieldWriteRequired fname enc value ms = ms ++ [(fname, enc value)] := by
  refine ⟨?_, ?_, ?_, ?_, ?_, ?_, ?_⟩
  · intro h
    simp [fieldReadRequired, h]
  · intro v hv hd
    simp [fieldReadRequired, hv, hd]
  · exact ⟨"Field not found: ".data, (" in type " ++ tyName).data, by
      simp [String.data_append]⟩
  · exact ⟨("Field not found: " ++ fname ++ " in type ").data, [], by
      simp [String.data_append]⟩
  · exact ⟨"Cannot parse field: ".data, (" in type " ++ tyName).data, by
      simp [String.data_append]⟩
  · exact ⟨("Cannot parse field: " ++ fname ++ " in type ").data, [], by
      simp [String.data_append]⟩
  · rfl

/-- Witness for C6: type `"Dto"` with required int field `"id"`. -/
theorem field_required_spec_witness :
    fieldReadRequired "Dto" "id" intGet [] = .error "Field not found: id in type Dto"
    ∧ fieldReadRequired "Dto" "id" intGet [("id", .jstr "x")] =
        .error "Cannot parse field: id in type Dto"
    ∧ fieldWriteRequired "id" intSet (7 : Int) [] = [("id", intSet 7)] := by
  refine ⟨?_, ?_, ?_⟩
  · exact (field_required_spec "Dto" "id" intGet intSet 7 []).1
      (by simp [findMember, lookupKey])
  · exact (field_required_spec "Dto" "id" intGet intSet 7 [("id", .jstr "x")]).2.1
      (.jstr "x") (by simp [findMember, lookupKey]) (by simp [intGet])
  · exact (field_required_spec "Dto" "id" intGet intSet 7 []).2.2.2.2.2.2

/-! ### C7: the fixed-bitset adapter -/

/-- **C7.** For a fixed bitset of width `w`: decode succeeds on any string
node of `'0'`/`'1'` characters, and, when `w ≤ 64`, on any unsigned-64-bit
integer node; every other node fails.  Encode emits the integer form exactly
when `w ≤ 64` and the string form otherwise, so the integer wire form is
never produced for a bitset wider than 64 bits. -/
theorem bitset_adapter_spec (w : Nat) (s : String) (n : Int) (v : JNode) (bits : List Bool)
    (hs : s.data.all (fun c => c == '0' || c == '1') = true)
    (hn : 0 ≤ n ∧ n < 18446744073709551616) :
    (bitsetGet w (.jstr s)).isSome = true
    ∧ (w ≤ 64 → bitsetGet w (.jnum n) = some (natToBits w n.toNat))
    ∧ (64 < w → isStringNode v = false → bitsetGet w v = none)
    ∧ (w ≤ 64 → isStringNode v = false → uint64Get v = none → bitsetGet w v = none)
    ∧ (w ≤ 64 → ∃ m : Int, bitsetSet w bits = .jnum m)
    ∧ (64 < w → bitsetSet w bits = .jstr (bitsToString bits)) := by
  refine ⟨?_, ?_, ?_, ?_, ?_, ?_⟩
  · simp [bitsetGet, bitsetFromString, hs]
  · intro hw
    simp [bitsetGet, hw, uint64Get, hn.1, hn.2]
  · intro hw hstr
    have hnle : ¬w ≤ 64 := by omega
    cases v <;> simp [bitsetGet, hnle] <;> simp [isStringNode] at hstr
  · intro hw hstr hu
    cases v <;> simp [bitsetGet, hw, hu] <;> simp [isStringNode] at hstr
  · intro hw
    exact ⟨Int.ofNat (bitsToNat bits), by simp [bitsetSet, hw]⟩
  · intro hw
    have hnle : ¬w ≤ 64 := by omega
    simp [bitsetSet, hnle]

/-- Witness for C7 at widths 64 and 65. -/
theorem bitset_adapter_spec_witness :
    (bitsetGet 64 (.jstr "10")).isSome = true
    ∧ bitsetGet 64 (.jnum 3) = some (natToBits 64 (3 : Int).toNat)
    ∧ (bitsetGet 65 (.jstr "01")).isSome = true
    ∧ bitsetGet 65 (.jbool true) = none
    ∧ bitsetGet 64 (.jbool true) = none
    ∧ (∃ m : Int, bitsetSet 64 [true] = .jnum m)
    ∧ bitsetSet 65 (List.replicate 65 true) = .jstr (bitsToString (List.replicate 65 true)) := by
  have h64 := bitset_adapter_spec 64 "10" 3 (.jbool true) [true] (by decide)
    (by constructor <;> decide)
  have h65 := bitset_adapter_spec 65 "01" 3 (.jbool true) (List.replicate 65 true)
    (by decide) (by constructor <;> decide)
  exact ⟨h64.1, h64.2.1 (by decide), h65.1, h65.2.2.1 (by decide) (by decide),
    h64.2.2.2.1 (by decide) (by decide) (by decide), h64.2.2.2.2.1 (by decide),
    h65.2.2.2.2.2 (by decide)⟩

/-! ### C8: the named-enum adapter -/

theorem buildNameMap_lookup (names : List String) (i0 : Nat) (acc : List (String × Nat))
    (s : String) :
    lookupKey (buildNameMap names i0 acc) s =
      match lookupKey acc s with
      | some v => some v
      | none => (firstIdx s names).map (fun j => j + i0) := by
  induction names generalizing i0 acc with
  | nil => cases h : lookupKey acc s <;> simp [buildNameMap, firstIdx, h]
  | cons n rest ih =>
    rw [show buildNameMap (n :: rest) i0 acc = buildNameMap rest (i0 + 1) (emplace acc n i0)
      from rfl, ih]
    cases hacc : lookupKey acc s with
    | some v => rw [lookupKey_emplace_of_some acc n s i0 v hacc]
    | none =>
      by_cases hns : n = s
      · subst hns
        rw [lookupKey_emplace_self acc n i0 hacc]
        simp [firstIdx]
      · rw [lookupKey_emplace_ne acc n s i0 hns, hacc]
        simp only [firstIdx, if_neg hns]
        cases firstIdx s rest with
        | none => simp
        | some j => simp [Nat.add_assoc, Nat.add_comm 1 i0]

theorem enumConvert_eq_firstIdx (names : List String) (s : String) :
    enumConvert names s = firstIdx s names := by
  rw [enumConvert, buildNameMap_lookup]
  simp only [lookupKey]
  cases firstIdx s names <;> simp

theorem firstIdx_nodup_iff (names : List String) (s : String) (i : Nat)
    (hnd : namesNodupB names = true) :
    firstIdx s names = some i ↔ names.get? i = some s := by
  induction names generalizing i with
  | nil => simp [firstIdx]
  | cons n rest ih =>
    simp only [namesNodupB, Bool.and_eq_true, Bool.not_eq_true'] at hnd
    have hmem : n ∉ rest := by
      have := hnd.1
      simp at this
      exact this
    by_cases hns : n = s
    · subst hns
      simp only [firstIdx, if_pos rfl]
      constructor
      · intro h
        have : i = 0 := by
          cases i with
          | zero => rfl
          | succ j => simp at h
        subst this
        simp
      · intro h
        cases i with
        | zero => rfl
        | succ j =>
          exfalso
          simp only [List.get?_cons_succ] at h
          exact hmem (List.get?_mem h)
    · simp only [firstIdx, if_neg hns]
      constructor
      · intro h
        obtain ⟨j, hj, rfl⟩ : ∃ j, firstIdx s rest = some j ∧ i = j + 1 := by
          cases hf : firstIdx s rest with
          | none => simp [hf] at h
          | some j =>
            rw [hf] at h
            exact ⟨j, rfl, (Option.some.inj h).symm⟩
        simp only [List.get?_cons_succ]
        exact (ih j hnd.2).1 hj
      · intro h
        cases i with
        | zero =>
          simp only [List.get?_cons_zero, Option.some.injEq] at h
          exact absurd h hns
        | succ j =>
          simp only [List.get?_cons_succ] at h
          rw [(ih j hnd.2).2 h]
          rfl

theorem firstIdx_eq_none (names : List String) (s : String)
    (h : names.contains s = false) : firstIdx s names = none := by
  induction names with
  | nil => rfl
  | cons n rest ih =>
    rw [List.contains_cons] at h
    simp only [Bool.or_eq_false_iff, beq_eq_false_iff_ne, ne_eq] at h
    have hne : ¬n = s := fun hns => h.1 hns.symm
    simp [firstIdx, hne, ih h.2]

/-- **C8.** For an enum with a declared, duplicate-free name table: decoding
a string succeeds exactly when the string is a declared name, yielding the
ordinal at that name's table index; an undeclared name and any non-string
node fail; encoding writes the table entry at the value's ordinal index. -/
theorem enum_named_adapter_spec (names : List String) (s : String) (i : Nat) (v : JNode)
    (hnd : namesNodupB names = true) :
    (enumGet names (.jstr s) = some i ↔ names.get? i = some s)
    ∧ (names.contains s = false → enumGet names (.jstr s) = none)
    ∧ (isStringNode v = false → enumGet names v = none)
    ∧ (∀ hi : i < names.length, enumSet names i = .jstr (names.get ⟨i, hi⟩)) := by
  refine ⟨?_, ?_, ?_, ?_⟩
  · rw [show enumGet names (.jstr s) = enumConvert names s from rfl,
      enumConvert_eq_firstIdx]
    exact firstIdx_nodup_iff names s i hnd
  · intro h
    rw [show enumGet names (.jstr s) = enumConvert names s from rfl,
      enumConvert_eq_firstIdx]
    exact firstIdx_eq_none names s h
  · intro hstr
    cases v <;> simp [enumGet, stringGet] <;> simp [isStringNode] at hstr
  · intro hi
    have hgd : names.getD i "" = names.get ⟨i, hi⟩ := by
      rw [List.getD_eq_getElem names "" hi]
      simp
    rw [enumSet, hgd]

/-- Witness for C8 at the three-name table `["A", "B", "C"]`. -/
theorem enum_named_adapter_spec_witness :
    enumGet ["A", "B", "C"] (.jstr "B") = some 1
    ∧ enumGet ["A", "B", "C"] (.jstr "Z") = none
    ∧ enumGet ["A", "B", "C"] (.jnum 0) = none
    ∧ enumSet ["A", "B", "C"] 1 = .jstr "B" := by
  have h := enum_named_adapter_spec ["A", "B", "C"] "B" 1 (.jnum 0) (by decide)
  have hz := enum_named_adapter_spec ["A", "B", "C"] "Z" 1 (.jnum 0) (by decide)
  refine ⟨h.1.mpr (by decide), hz.2.1 (by decide), h.2.2.1 (by decide), ?_⟩
  have := h.2.2.2 (by decide)
  simpa using this

/-! ### C4: tagged-union discriminant validation and dispatch -/

/-- **C4.** For a tagged union: decode fails when the `"type"` discriminant
is absent, unparseable as the indexer type, or matches no alternative index,
and never silently selects an alternative; when the discriminant selects
alternative `idx`, decode dispatches to that alternative's decoder — on the
whole object for a struct-like alternative, on the sibling `"value"` member
otherwise — and its failure is the union's failure. -/
theorem variant_discriminant_spec {α : Type} (alts : List (Bool × (JNode → Option α)))
    (ms : List (String × JNode)) (tv : JNode) (idx : Nat) :
    (findMember ms "type" = none → variantGet alts (.jobj ms) = none)
    ∧ (findMember ms "type" = some tv → uint64Get tv = none →
        variantGet alts (.jobj ms) = none)
    ∧ (findMember ms "type" = some tv → uint64Get tv = some idx → alts.length ≤ idx →
        variantGet alts (.jobj ms) = none)
    ∧ (∀ dec : JNode → Option α, findMember ms "type" = some tv →
        uint64Get tv = some idx → alts.get? idx = some (true, dec) →
        variantGet alts (.jobj ms) = (dec (.jobj ms)).map (fun a => (idx, a)))
    ∧ (∀ dec : JNode → Option α, findMember ms "type" = some tv →
        uint64Get tv = some idx → alts.get? idx = some (false, dec) →
        variantGet alts (.jobj ms) =
          ((findMember ms "value").bind dec).map (fun a => (idx, a))) := by
  refine ⟨?_, ?_, ?_, ?_, ?_⟩
  · intro h
    simp [variantGet, h]
  · intro h hu
    simp [variantGet, h, hu]
  · intro h hu hlen
    have hnone : alts.get? idx = none := by
      rw [List.get?_eq_none]
      exact hlen
    rw [List.get?_eq_getElem?] at hnone
    simp [variantGet, h, hu, hnone]
  · intro dec h hu halt
    rw [List.get?_eq_getElem?] at halt
    simp [variantGet, h, hu, halt, loadOne]
  · intro dec h hu halt
    rw [List.get?_eq_getElem?] at halt
    cases hv : findMember ms "value" with
    | none => simp [variantGet, h, hu, halt, loadOne, hv]
    | some pv => simp [variantGet, h, hu, halt, loadOne, hv]

/-- Witness for C4: a two-alternative union (payload alternative 0, struct
alternative 1); includes the spec's out-of-range discriminant 99. -/
theorem variant_discriminant_spec_witness :
    variantGet [(false, intGet), (true, fun _ => some (7 : Int))] (.jobj []) = none
    ∧ variantGet [(false, intGet), (true, fun _ => some (7 : Int))]
        (.jobj [("type", .jstr "x")]) = none
    ∧ variantGet [(false, intGet), (true, fun _ => some (7 : Int))]
        (.jobj [("type", .jnum 99)]) = none
    ∧ variantGet [(false, intGet), (true, fun _ => some (7 : Int))]
        (.jobj [("type", .jnum 1)]) = some (1, 7)
    ∧ variantGet [(false, intGet), (true, fun _ => some (7 : Int))]
        (.jobj [("type", .jnum 0), ("value", .jnum 5)]) = some (0, 5) := by
  refine ⟨?_, ?_, ?_, ?_, ?_⟩
  · exact (variant_discriminant_spec _ [] (.jnull) 0).1 (by simp [findMember, lookupKey])
  · exact (variant_discriminant_spec _ _ (.jstr "x") 0).2.1
      (by simp [findMember, lookupKey]) (by simp [uint64Get])
  · exact (variant_discriminant_spec _ _ (.jnum 99) 99).2.2.1
      (by simp [findMember, lookupKey]) (by simp [uint64Get]) (by simp)
  · have := (variant_discriminant_spec [(false, intGet), (true, fun _ => some (7 : Int))]
      [("type", .jnum 1)] (.jnum 1) 1).2.2.2.1 (fun _ => some (7 : Int))
      (by simp [findMember, lookupKey]) (by simp [uint64Get]) (by simp)
    simpa using this
  · have := (variant_discriminant_spec [(false, intGet), (true, fun _ => some (7 : Int))]
      [("type", .jnum 0), ("value", .jnum 5)] (.jnum 0) 0).2.2.2.2 intGet
      (by simp [findMember, lookupKey]) (by simp [uint64Get]) (by simp)
    simpa [findMember, lookupKey, intGet] using this

/-! ### C3: fixed-capacity array-like destinations -/

theorem decodeElemsInto_eq {α : Type} (g : JNode → Option α) (elems : List JNode)
    (pre suf : List α) (hlen : elems.length ≤ suf.length) :
    decodeElemsInto g elems (pre ++ suf) pre.length =
      (mapOpt g elems).map (fun xs => pre ++ xs ++ suf.drop elems.length) := by
  induction elems generalizing pre suf with
  | nil => simp [decodeElemsInto, mapOpt]
  | cons e rest ih =>
    cases hg : g e with
    | none => simp [decodeElemsInto, mapOpt, hg]
    | some x =>
      cases suf with
      | nil => simp at hlen
      | cons s0 srest =>
        have hset : (pre ++ s0 :: srest).set pre.length x = (pre ++ [x]) ++ srest := by
          rw [List.set_append_right pre.length x (le_refl pre.length)]
          simp
        have hlen2 : rest.length ≤ srest.length := by
          simp at hlen
          omega
        have ih2 := ih (pre ++ [x]) srest hlen2
        simp only [List.length_append, List.length_cons, List.length_nil] at ih2
        simp only [decodeElemsInto, mapOpt, hg, hset]
        rw [show pre.length + 1 = pre.length + (0 + 1) from by omega, ih2]
        cases mapOpt g rest with
        | none => simp
        | some xs => simp [List.drop_succ_cons]

/-- **C3.** For a fixed-capacity array-like destination of capacity `N`:
decoding a longer wire array fails — for `array_with_size` with the thrown
`"Too large array"` (Capacity exceeded) and for `std::array` with a `false`
adapter return — and never silently truncates; decoding a wire array of at
most `N` elements whose elements all decode succeeds, with exactly the
decoded elements in the observable range, and for the default-fillable
`std::array` the slots beyond the incoming length hold the element
default. -/
theorem fixed_capacity_array_spec {α : Type} (g : JNode → Option α) (dflt : α)
    (N : Nat) (st : AwsState α) (dest : List α) (elems : List JNode) (xs : List α) :
    (N < elems.length → awsGet g N st (.jarr elems) = .thrown "Too large array")
    ∧ (elems.length ≤ N → st.arr.length = N → mapOpt g elems = some xs →
        awsGet g N st (.jarr elems) =
          .ok { arr := xs ++ st.arr.drop elems.length, size := elems.length })
    ∧ (dest.length < elems.length → fixedArrayGet g dflt dest (.jarr elems) = none)
    ∧ (elems.length ≤ dest.length → mapOpt g elems = some xs →
        fixedArrayGet g dflt dest (.jarr elems) =
          some (xs ++ List.replicate (dest.length - elems.length) dflt)) := by
  refine ⟨?_, ?_, ?_, ?_⟩
  · intro h
    simp [awsGet, awsResize, h]
  · intro hle hlen hmap
    have hnlt : ¬N < elems.length := by omega
    have hdec := decodeElemsInto_eq g elems [] st.arr (by omega)
    simp only [List.nil_append, List.length_nil] at hdec
    simp [awsGet, awsResize, hnlt, hdec, hmap]
  · intro h
    simp [fixedArrayGet, h]
  · intro hle hmap
    have hnlt : ¬dest.length < elems.length := by omega
    have hdec := decodeElemsInto_eq g elems [] (List.replicate dest.length dflt)
      (by simp; omega)
    simp only [List.nil_append, List.length_nil] at hdec
    simp [fixedArrayGet, hnlt, hdec, hmap, List.drop_replicate]

/-- Witness for C3 at capacity 4 with 5- and 3-element int arrays. -/
theorem fixed_capacity_array_spec_witness :
    awsGet intGet 4 ⟨[0, 0, 0, 0], 0⟩
        (.jarr [.jnum 1, .jnum 2, .jnum 3, .jnum 4, .jnum 5]) = .thrown "Too large array"
    ∧ awsGet intGet 4 ⟨[0, 0, 0, 0], 0⟩ (.jarr [.jnum 1, .jnum 2, .jnum 3]) =
        .ok ⟨[1, 2, 3, 0], 3⟩
    ∧ fixedArrayGet intGet 0 [0, 0, 0, 0]
        (.jarr [.jnum 1, .jnum 2, .jnum 3, .jnum 4, .jnum 5]) = none
    ∧ fixedArrayGet intGet 0 [0, 0, 0, 0] (.jarr [.jnum 1, .jnum 2, .jnum 3]) =
        some [1, 2, 3, 0] := by
  have h5 := fixed_capacity_array_spec intGet (0 : Int) 4 ⟨[0, 0, 0, 0], 0⟩ [0, 0, 0, 0]
    [.jnum 1, .jnum 2, .jnum 3, .jnum 4, .jnum 5] []
  have h3 := fixed_capacity_array_spec intGet (0 : Int) 4 ⟨[0, 0, 0, 0], 0⟩ [0, 0, 0, 0]
    [.jnum 1, .jnum 2, .jnum 3] [1, 2, 3]
  refine ⟨h5.1 (by decide), ?_, h5.2.2.1 (by decide), ?_⟩
  · have := h3.2.1 (by decide) (by decide) (by decide)
    simpa using this
  · have := h3.2.2.2 (by decide) (by decide)
    simpa using this

/-! ### C1: map-like decode -/

/-- **Counterexample to C1 as stated.**  Decoding the object
`{"k": 1, "k": 2}` into a map that previously held `"old" ↦ 7` yields the
single entry `"k" ↦ 1`: the prior contents are indeed replaced, but the
duplicate wire key keeps the *first* member's value (because the source
inserts with `emplace`, which never overwrites), not the later member's
value as the claim states, and only one entry results from the two wire
members. -/
theorem mapLike_last_write_wins_cx :
    mapLikeGet stringGet intGet [("old", (7 : Int))]
        (.jobj [("k", .jnum 1), ("k", .jnum 2)]) = some [("k", 1)]
    ∧ lookupKey [("k", (1 : Int))] "k" = some 1
    ∧ ((1 : Int) = 2 → False) := by
  refine ⟨by decide, by decide, by decide⟩

theorem mapMembersGet_nodup {κ β : Type} [DecidableEq κ]
    (kg : JNode → Option κ) (g : JNode → Option β) (ms : List (String × JNode))
    (acc res : List (κ × β)) (hnd : keysNodupB acc = true)
    (hres : mapMembersGet kg g ms acc = some res) : keysNodupB res = true := by
  induction ms generalizing acc with
  | nil =>
    simp only [mapMembersGet, Option.some.injEq] at hres
    exact hres ▸ hnd
  | cons m rest ih =>
    obtain ⟨name, val⟩ := m
    simp only [mapMembersGet] at hres
    cases hg : g val with
    | none => simp [hg] at hres
    | some item =>
      rw [hg] at hres
      cases hk : kg (.jstr name) with
      | none => simp [hk] at hres
      | some key =>
        rw [hk] at hres
        exact ih (emplace acc key item) (keysNodupB_emplace acc key item hnd) hres

theorem mapMembersGet_lookup {κ β : Type} [DecidableEq κ]
    (kg : JNode → Option κ) (g : JNode → Option β) (ms : List (String × JNode))
    (acc res : List (κ × β)) (hres : mapMembersGet kg g ms acc = some res) (k : κ) :
    lookupKey res k =
      match lookupKey acc k with
      | some b => some b
      | none =>
        (ms.find? (fun m => decide (kg (.jstr m.1) = some k))).bind (fun m => g m.2) := by
  induction ms generalizing acc with
  | nil =>
    simp only [mapMembersGet, Option.some.injEq] at hres
    subst hres
    cases lookupKey acc k <;> simp
  | cons m rest ih =>
    obtain ⟨name, val⟩ := m
    simp only [mapMembersGet] at hres
    cases hg : g val with
    | none => simp [hg] at hres
    | some item =>
      rw [hg] at hres
      cases hk : kg (.jstr name) with
      | none => simp [hk] at hres
      | some key =>
        rw [hk] at hres
        rw [ih (emplace acc key item) hres]
        by_cases hkey : key = k
        · subst hkey
          cases hacc : lookupKey acc key with
          | some b => rw [lookupKey_emplace_of_some acc key key item b hacc]
          | none =>
            rw [lookupKey_emplace_self acc key item hacc]
            simp [List.find?_cons, hk, hg]
        · rw [lookupKey_emplace_ne acc key k item hkey]
          cases hacc : lookupKey acc k with
          | some b => rfl
          | none =>
            have hne : (decide (kg (.jstr name) = some k)) = false := by
              simp [hk, hkey]
            simp [List.find?_cons, hne]

/-- **C1 (amended).**  For every map-like destination and every JSON object
node, decode replaces the destination's prior contents entirely (the result
is independent of the prior contents) and inserts one entry per *distinct*
wire key, with duplicate wire keys resolved **first**-write-wins — on
success the entry stored under a decoded key is the decoded value of the
*first* wire member with that key (`emplace` insertion semantics never
overwrite an existing entry) — and the resulting container has unique
keys. -/
theorem mapLike_decode_clears_first_wins {κ β : Type} [DecidableEq κ]
    (kg : JNode → Option κ) (g : JNode → Option β)
    (dest dest2 res : List (κ × β)) (ms : List (String × JNode))
    (hres : mapLikeGet kg g dest (.jobj ms) = some res) :
    mapLikeGet kg g dest (.jobj ms) = mapLikeGet kg g dest2 (.jobj ms)
    ∧ keysNodupB res = true
    ∧ (∀ k : κ, lookupKey res k =
        (ms.find? (fun m => decide (kg (.jstr m.1) = some k))).bind (fun m => g m.2)) := by
  simp only [mapLikeGet, clearContainer] at hres ⊢
  refine ⟨trivial, mapMembersGet_nodup kg g ms [] res rfl hres, ?_⟩
  intro k
  rw [mapMembersGet_lookup kg g ms [] res hres k]
  simp [lookupKey]

/-- Witness for C1 (amended) on `{"a": 1, "k": 1, "k": 2}` with a non-empty
prior destination. -/
theorem mapLike_decode_clears_first_wins_witness :
    mapLikeGet stringGet intGet [("old", (7 : Int))]
        (.jobj [("a", .jnum 1), ("k", .jnum 1), ("k", .jnum 2)]) =
      mapLikeGet stringGet intGet []
        (.jobj [("a", .jnum 1), ("k", .jnum 1), ("k", .jnum 2)])
    ∧ keysNodupB [("a", (1 : Int)), ("k", 1)] = true
    ∧ (∀ k : String, lookupKey [("a", (1 : Int)), ("k", 1)] k =
        ([("a", JNode.jnum 1), ("k", JNode.jnum 1), ("k", JNode.jnum 2)].find?
          (fun m => decide (stringGet (.jstr m.1) = some k))).bind (fun m => intGet m.2)) :=
  mapLike_decode_clears_first_wins stringGet intGet [("old", 7)] []
    [("a", (1 : Int)), ("k", 1)]
    [("a", .jnum 1), ("k", .jnum 1), ("k", .jnum 2)] (by decide)

/-! ### Round-trip lemmas for the individual adapters -/

theorem bitsToNat_lt (bits : List Bool) : bitsToNat bits < 2 ^ bits.length := by
  induction bits with
  | nil => simp [bitsToNat]
  | cons b rest ih =>
    rw [List.length_cons, pow_succ]
    cases b <;> simp [bitsToNat] <;> omega

theorem natToBits_bitsToNat (bits : List Bool) :
    natToBits bits.length (bitsToNat bits) = bits := by
  induction bits with
  | nil => rfl
  | cons b rest ih =>
    have h1 : ((if b then 1 else 0) + 2 * bitsToNat rest) % 2 = if b then 1 else 0 := by
      cases b <;> simp <;> omega
    have h2 : ((if b then 1 else 0) + 2 * bitsToNat rest) / 2 = bitsToNat rest := by
      cases b <;> simp <;> omega
    simp only [List.length_cons, natToBits, bitsToNat, h1, h2, ih]
    cases b <;> simp

theorem bitsToString_all_digits (bits : List Bool) :
    (bitsToString bits).data.all (fun c => c == '0' || c == '1') = true := by
  simp only [bitsToString, List.all_eq_true]
  intro c hc
  simp only [List.mem_map] at hc
  obtain ⟨b, _, rfl⟩ := hc
  cases b <;> decide

theorem stringToBits_bitsToString (bits : List Bool) :
    stringToBits bits.length (bitsToString bits).data = bits := by
  have hcs : (bitsToString bits).data = bits.reverse.map (fun b => if b then '1' else '0') :=
    rfl
  have hlen : (bitsToString bits).data.length = bits.length := by rw [hcs]; simp
  apply List.ext_getElem?
  intro i
  simp only [stringToBits, hlen, Nat.min_self]
  by_cases hi : i < bits.length
  · rw [List.getElem?_map, List.getElem?_range hi, List.getElem?_eq_getElem hi]
    simp only [Option.map_some']
    rw [if_pos hi]
    congr 1
    rw [List.getD_eq_getElem?_getD, hcs, List.getElem?_map]
    have hrev : bits.reverse[bits.length - 1 - i]? =
        bits[bits.length - 1 - (bits.length - 1 - i)]? :=
      List.getElem?_reverse (by omega)
    rw [hrev, show bits.length - 1 - (bits.length - 1 - i) = i from by omega,
      List.getElem?_eq_getElem hi]
    simp only [Option.map_some', Option.getD_some]
    cases hbi : bits[i] <;> simp
  · rw [List.getElem?_eq_none_iff.mpr (by simp; omega),
      List.getElem?_eq_none_iff.mpr (by omega)]

theorem enumGet_enumSet (names : List String) (i : Nat) (hnd : namesNodupB names = true)
    (hi : i < names.length) : enumGet names (enumSet names i) = some i := by
  rw [enumSet, show enumGet names (.jstr (names.getD i "")) =
    enumConvert names (names.getD i "") from rfl, enumConvert_eq_firstIdx]
  apply (firstIdx_nodup_iff names _ i hnd).2
  rw [List.get?_eq_getElem?, List.getElem?_eq_getElem hi, List.getD_eq_getElem names "" hi]

theorem VTyAlt_elim (alts : List Shape) (i : Nat) (x : V) (h : VTyAlt alts i x = true) :
    ∃ alt, alts.get? i = some alt ∧ VTyB alt x = true := by
  induction alts generalizing i with
  | nil => simp [VTyAlt] at h
  | cons a rest ih =>
    cases i with
    | zero => exact ⟨a, rfl, by simpa [VTyAlt] using h⟩
    | succ j =>
      obtain ⟨alt, h1, h2⟩ := ih j (by simpa [VTyAlt] using h)
      exact ⟨alt, by simpa using h1, h2⟩

theorem get?_lt_length {γ : Type} (l : List γ) (i : Nat) (a : γ) (h : l.get? i = some a) :
    i < l.length := by
  by_contra hc
  rw [List.get?_eq_none.2 (by omega)] at h
  exact Option.noConfusion h

theorem encodeAlt_eq (alts : List Shape) (i : Nat) (x : V) (alt : Shape)
    (h : alts.get? i = some alt) : encodeAlt alts i x = encodeU alt x := by
  induction alts generalizing i with
  | nil => simp at h
  | cons a rest ih =>
    cases i with
    | zero =>
      simp only [List.get?_cons_zero, Option.some.injEq] at h
      subst h
      simp [encodeAlt]
    | succ j =>
      simp only [List.get?_cons_succ] at h
      rw [show encodeAlt (a :: rest) (j + 1) x = encodeAlt rest j x from by simp [encodeAlt]]
      exact ih j h

theorem decodeAlts_eq (alts : List Shape) (i : Nat) (ms : List (String × JNode))
    (alt : Shape) (h : alts.get? i = some alt) :
    decodeAlts alts i ms =
      match findMember ms "value" with
      | none => none
      | some pv => decodeU alt pv := by
  induction alts generalizing i with
  | nil => simp at h
  | cons a rest ih =>
    cases i with
    | zero =>
      simp only [List.get?_cons_zero, Option.some.injEq] at h
      subst h
      simp [decodeAlts]
    | succ j =>
      simp only [List.get?_cons_succ] at h
      rw [show decodeAlts (a :: rest) (j + 1) ms = decodeAlts rest j ms from by
        simp [decodeAlts]]
      exact ih j h

theorem shapeWFList_get (alts : List Shape) (i : Nat) (alt : Shape)
    (h : shapeWFList alts = true) (hg : alts.get? i = some alt) : shapeWF alt = true := by
  induction alts generalizing i with
  | nil => simp at hg
  | cons a rest ih =>
    simp only [shapeWFList, Bool.and_eq_true] at h
    cases i with
    | zero =>
      simp only [List.get?_cons_zero, Option.some.injEq] at hg
      exact hg ▸ h.1
    | succ j =>
      simp only [List.get?_cons_succ] at hg
      exact ih j h.2 hg

theorem VTyList_mem (s : Shape) (xs : List V) (h : VTyList s xs = true) :
    ∀ x ∈ xs, VTyB s x = true := by
  induction xs with
  | nil => simp
  | cons y rest ih =>
    simp only [VTyList, Bool.and_eq_true] at h
    intro x hx
    rcases List.mem_cons.1 hx with rfl | hx2
    · exact h.1
    · exact ih h.2 x hx2

theorem VTyMems_mem (s : Shape) (es : List (String × V)) (h : VTyMems s es = true) :
    ∀ p ∈ es, VTyB s p.2 = true := by
  induction es with
  | nil => simp
  | cons q rest ih =>
    obtain ⟨k, x⟩ := q
    simp only [VTyMems, Bool.and_eq_true] at h
    intro p hp
    rcases List.mem_cons.1 hp with rfl | hp2
    · exact h.1
    · exact ih h.2 p hp2

theorem noSomeNoneList_mem (xs : List V) (h : noSomeNoneList xs = true) :
    ∀ x ∈ xs, noSomeNone x = true := by
  induction xs with
  | nil => simp
  | cons y rest ih =>
    simp only [noSomeNoneList, Bool.and_eq_true] at h
    intro x hx
    rcases List.mem_cons.1 hx with rfl | hx2
    · exact h.1
    · exact ih h.2 x hx2

theorem noSomeNoneMems_mem (es : List (String × V)) (h : noSomeNoneMems es = true) :
    ∀ p ∈ es, noSomeNone p.2 = true := by
  induction es with
  | nil => simp
  | cons q rest ih =>
    obtain ⟨k, x⟩ := q
    simp only [noSomeNoneMems, Bool.and_eq_true] at h
    intro p hp
    rcases List.mem_cons.1 hp with rfl | hp2
    · exact h.1
    · exact ih h.2 p hp2

theorem noSomeNone_vSome (x : V) (h : noSomeNone (V.vSome x) = true) :
    x ≠ V.vNone ∧ noSomeNone x = true := by
  cases x with
  | vNone => simp [noSomeNone] at h
  | vInt n => exact ⟨by simp, by simp [noSomeNone]⟩
  | vUint n => exact ⟨by simp, by simp [noSomeNone]⟩
  | vBool b => exact ⟨by simp, by simp [noSomeNone]⟩
  | vStr s => exact ⟨by simp, by simp [noSomeNone]⟩
  | vBits bs => exact ⟨by simp, by simp [noSomeNone]⟩
  | vEnum i => exact ⟨by simp, by simp [noSomeNone]⟩
  | vSome y => exact ⟨by simp, by simpa [noSomeNone] using h⟩
  | vVec xs => exact ⟨by simp, by simpa [noSomeNone] using h⟩
  | vMap es => exact ⟨by simp, by simpa [noSomeNone] using h⟩
  | vVar i y => exact ⟨by simp, by simpa [noSomeNone] using h⟩

theorem decodeU_optional_of_ne_null (s : Shape) (v : JNode) (h : v ≠ JNode.jnull) :
    decodeU (.sOptional s) v = (decodeU s v).map V.vSome := by
  cases v with
  | jnull => exact absurd rfl h
  | jbool b => simp [decodeU]
  | jnum n => simp [decodeU]
  | jstr s2 => simp [decodeU]
  | jarr es => simp [decodeU]
  | jobj ms => simp [decodeU]

theorem decodeList_encodeList (s : Shape) (xs : List V)
    (hIH : ∀ x ∈ xs, decodeU s (encodeU s x) = some x) :
    decodeList s (encodeList s xs) = some xs := by
  induction xs with
  | nil => simp [decodeList, encodeList]
  | cons x rest ih =>
    simp only [encodeList, decodeList, hIH x (List.mem_cons_self x rest)]
    rw [ih (fun y hy => hIH y (List.mem_cons_of_mem x hy))]
    rfl

theorem decodeMems_encodeMembers (s : Shape) (es acc : List (String × V))
    (hnd : keysNodupB es = true)
    (hdisj : ∀ p ∈ es, lookupKey acc p.1 = none)
    (hIH : ∀ p ∈ es, decodeU s (encodeU s p.2) = some p.2) :
    decodeMems s (encodeMembers s es) acc = some (acc ++ es) := by
  induction es generalizing acc with
  | nil => simp [decodeMems, encodeMembers]
  | cons p rest ih =>
    obtain ⟨k, x⟩ := p
    simp only [keysNodupB, Bool.and_eq_true, Option.isNone_iff_eq_none] at hnd
    simp only [encodeMembers, decodeMems,
      hIH (k, x) (List.mem_cons_self (k, x) rest), stringGet]
    rw [emplace_of_absent acc k x (hdisj (k, x) (List.mem_cons_self (k, x) rest))]
    have hdisj2 : ∀ p ∈ rest, lookupKey (acc ++ [(k, x)]) p.1 = none := by
      intro p hp
      rw [lookupKey_append, hdisj p (List.mem_cons_of_mem (k, x) hp)]
      have hne : p.1 ≠ k := (lookupKey_eq_none_iff rest k).1 hnd.1 p hp
      have hkne : ¬k = p.1 := fun hkp => hne hkp.symm
      simp [lookupKey, hkne]
    rw [ih (acc ++ [(k, x)]) hnd.2 hdisj2
      (fun p hp => hIH p (List.mem_cons_of_mem (k, x) hp))]
    simp


theorem uint64Get_natCast (t : Nat) (hlt : t < 18446744073709551616) :
    uint64Get (.jnum ((t : Int))) = some t := by
  have h0 : (0 : Int) ≤ ((t : Int)) := Int.natCast_nonneg _
  have h1 : ((t : Int)) < 18446744073709551616 := by omega
  simp [uint64Get, h0, h1]

theorem decodeU_sVariant_select (alts : List Shape) (idx : Nat)
    (ms : List (String × JNode)) (tv : JNode)
    (hfind : findMember ms "type" = some tv) (hu : uint64Get tv = some idx) :
    decodeU (.sVariant alts) (.jobj ms) = (decodeAlts alts idx ms).map (.vVar idx) := by
  simp only [decodeU, hfind, hu]

theorem decodeAlts_select (alts : List Shape) (i : Nat) (ms : List (String × JNode))
    (alt : Shape) (pv : JNode) (hget : alts.get? i = some alt)
    (hfindv : findMember ms "value" = some pv) :
    decodeAlts alts i ms = decodeU alt pv := by
  rw [decodeAlts_eq alts i ms alt hget, hfindv]

theorem findMember_type_pair (i : Nat) (e : JNode) :
    findMember [("type", uint64Set i), ("value", e)] "type" = some (uint64Set i) := by
  simp [findMember, lookupKey]

theorem findMember_value_pair (i : Nat) (e : JNode) :
    findMember [("type", uint64Set i), ("value", e)] "value" = some e := by
  simp [findMember, lookupKey]

theorem rt_int (m : Int) (h1 : -2147483648 ≤ m) (h2 : m < 2147483648) :
    decodeU .sInt (encodeU .sInt (.vInt m)) = some (.vInt m) := by
  simp [encodeU, decodeU, intSet, intGet, h1, h2]

theorem rt_uint (m : Nat) (hty : m < 18446744073709551616) :
    decodeU .sUint64 (encodeU .sUint64 (.vUint m)) = some (.vUint m) := by
  have hu := uint64Get_natCast m hty
  simp [encodeU, decodeU, uint64Set, hu]

theorem rt_bitset (bits : List Bool) :
    decodeU (.sBitset bits.length) (encodeU (.sBitset bits.length) (.vBits bits)) =
      some (.vBits bits) := by
  by_cases hw : bits.length ≤ 64
  · have hlt : bitsToNat bits < 18446744073709551616 := by
      have h1 := bitsToNat_lt bits
      have h2 : (2 : Nat) ^ bits.length ≤ 2 ^ 64 :=
        Nat.pow_le_pow_right (by norm_num) hw
      have h3 : (2 : Nat) ^ 64 = 18446744073709551616 := by norm_num
      omega
    have henc : encodeU (.sBitset bits.length) (.vBits bits) =
        JNode.jnum ((bitsToNat bits : Int)) := by simp [encodeU, bitsetSet, hw]
    have hu := uint64Get_natCast (bitsToNat bits) hlt
    have hbg : bitsetGet bits.length (JNode.jnum ((bitsToNat bits : Int))) =
        some (natToBits bits.length (bitsToNat bits)) := by
      simp [bitsetGet, hw, hu]
    rw [henc]
    simp [decodeU, hbg, natToBits_bitsToNat]
  · simp [encodeU, bitsetSet, hw, decodeU, bitsetGet, bitsetFromString,
      bitsToString_all_digits, stringToBits_bitsToString]

theorem rt_enum (names : List String) (i : Nat) (hwf : namesNodupB names = true)
    (hty : i < names.length) :
    decodeU (.sEnum names) (encodeU (.sEnum names) (.vEnum i)) = some (.vEnum i) := by
  simp [encodeU, decodeU, enumGet_enumSet names i hwf hty]

theorem rt_vec (s2 : Shape) (xs : List V)
    (hIH : ∀ y ∈ xs, decodeU s2 (encodeU s2 y) = some y) :
    decodeU (.sVec s2) (encodeU (.sVec s2) (.vVec xs)) = some (.vVec xs) := by
  simp only [encodeU, decodeU]
  rw [decodeList_encodeList s2 xs hIH]
  rfl

theorem rt_map (s2 : Shape) (es : List (String × V)) (hnd : keysNodupB es = true)
    (hIH : ∀ p ∈ es, decodeU s2 (encodeU s2 p.2) = some p.2) :
    decodeU (.sMap s2) (encodeU (.sMap s2) (.vMap es)) = some (.vMap es) := by
  simp only [encodeU, decodeU]
  rw [decodeMems_encodeMembers s2 es [] hnd (by intro p hp; simp [lookupKey]) hIH]
  simp

theorem rt_var (alts : List Shape) (i : Nat) (y : V) (alt : Shape)
    (hget : alts.get? i = some alt) (hlen : alts.length ≤ 18446744073709551616)
    (hIH : decodeU alt (encodeU alt y) = some y) :
    decodeU (.sVariant alts) (encodeU (.sVariant alts) (.vVar i y)) =
      some (.vVar i y) := by
  have hilen : i < alts.length := get?_lt_length alts i alt hget
  have hu : uint64Get (uint64Set i) = some i := uint64Get_natCast i (by omega)
  have henc : encodeU (.sVariant alts) (.vVar i y) =
      .jobj [("type", uint64Set i), ("value", encodeU alt y)] := by
    simp only [encodeU]
    rw [encodeAlt_eq alts i y alt hget]
  rw [henc, decodeU_sVariant_select alts i _ (uint64Set i)
    (findMember_type_pair i (encodeU alt y)) hu,
    decodeAlts_select alts i _ alt (encodeU alt y) hget
      (findMember_value_pair i (encodeU alt y)), hIH]
  rfl

/-- Strong-induction core of the round-trip property: for a well-formed
shape and a well-typed value with no present-optional-around-absent-optional,
decode inverts encode, and the encoding of a non-absent value is never the
null node. -/
theorem roundtrip_aux :
    ∀ n : Nat, ∀ s : Shape, ∀ x : V,
      sizeOf s + sizeOf x ≤ n → shapeWF s = true → VTyB s x = true →
      noSomeNone x = true →
      decodeU s (encodeU s x) = some x ∧ (x ≠ V.vNone → encodeU s x ≠ JNode.jnull) := by
  intro n
  induction n with
  | zero =>
    intro s x hsz _ _ _
    exfalso
    have h1 : 0 < sizeOf s := by cases s <;> simp_arith
    omega
  | succ n ih =>
    intro s x hsz hwf hty hg
    cases s with
    | sInt =>
      cases x <;> try (exfalso; revert hty; simp [VTyB]; done)
      case vInt m =>
        simp only [VTyB, Bool.and_eq_true, decide_eq_true_eq] at hty
        exact ⟨rt_int m hty.1 hty.2, fun _ => by simp [encodeU, intSet]⟩
    | sUint64 =>
      cases x <;> try (exfalso; revert hty; simp [VTyB]; done)
      case vUint m =>
        simp only [VTyB, decide_eq_true_eq] at hty
        exact ⟨rt_uint m hty, fun _ => by simp [encodeU, uint64Set]⟩
    | sBool =>
      cases x <;> try (exfalso; revert hty; simp [VTyB]; done)
      case vBool b =>
        exact ⟨by simp [encodeU, decodeU, boolSet, boolGet],
          fun _ => by simp [encodeU, boolSet]⟩
    | sStr =>
      cases x <;> try (exfalso; revert hty; simp [VTyB]; done)
      case vStr str =>
        exact ⟨by simp [encodeU, decodeU, stringSet, stringGet],
          fun _ => by simp [encodeU, stringSet]⟩
    | sBitset w =>
      cases x <;> try (exfalso; revert hty; simp [VTyB]; done)
      case vBits bits =>
        simp only [VTyB, beq_iff_eq] at hty
        subst hty
        refine ⟨rt_bitset bits, fun _ => ?_⟩
        simp only [encodeU, bitsetSet]
        split <;> simp
    | sEnum names =>
      cases x <;> try (exfalso; revert hty; simp [VTyB]; done)
      case vEnum i =>
        simp only [VTyB, decide_eq_true_eq] at hty
        simp only [shapeWF] at hwf
        exact ⟨rt_enum names i hwf hty, fun _ => by simp [encodeU, enumSet]⟩
    | sOptional s2 =>
      cases x <;> try (exfalso; revert hty; simp [VTyB]; done)
      case vNone =>
        exact ⟨by simp [encodeU, decodeU], fun h => absurd rfl h⟩
      case vSome y =>
        simp only [VTyB] at hty
        simp only [shapeWF] at hwf
        obtain ⟨hyne, hgy⟩ := noSomeNone_vSome y hg
        have h1 : sizeOf (Shape.sOptional s2) = 1 + sizeOf s2 := by simp
        have h2 : sizeOf (V.vSome y) = 1 + sizeOf y := by simp
        have IH := ih s2 y (by omega) hwf hty hgy
        have henc : encodeU (.sOptional s2) (.vSome y) = encodeU s2 y := by
          simp [encodeU]
        constructor
        · rw [henc, decodeU_optional_of_ne_null s2 _ (IH.2 hyne), IH.1]
          rfl
        · intro _
          rw [henc]
          exact IH.2 hyne
    | sVec s2 =>
      cases x <;> try (exfalso; revert hty; simp [VTyB]; done)
      case vVec xs =>
        simp only [VTyB] at hty
        simp only [shapeWF] at hwf
        simp only [noSomeNone] at hg
        have h1 : sizeOf (Shape.sVec s2) = 1 + sizeOf s2 := by simp
        have h2 : sizeOf (V.vVec xs) = 1 + sizeOf xs := by simp
        have hIH : ∀ y ∈ xs, decodeU s2 (encodeU s2 y) = some y := by
          intro y hy
          have hs : sizeOf y < sizeOf xs := List.sizeOf_lt_of_mem hy
          exact (ih s2 y (by omega) hwf (VTyList_mem s2 xs hty y hy)
            (noSomeNoneList_mem xs hg y hy)).1
        exact ⟨rt_vec s2 xs hIH, fun _ => by simp [encodeU]⟩
    | sMap s2 =>
      cases x <;> try (exfalso; revert hty; simp [VTyB]; done)
      case vMap es =>
        simp only [VTyB, Bool.and_eq_true] at hty
        simp only [shapeWF] at hwf
        simp only [noSomeNone] at hg
        have h1 : sizeOf (Shape.sMap s2) = 1 + sizeOf s2 := by simp
        have h2 : sizeOf (V.vMap es) = 1 + sizeOf es := by simp
        have hIH : ∀ p ∈ es, decodeU s2 (encodeU s2 p.2) = some p.2 := by
          intro p hp
          have hs : sizeOf p < sizeOf es := List.sizeOf_lt_of_mem hp
          obtain ⟨k, y⟩ := p
          have h0 : sizeOf ((k, y) : String × V) = 1 + sizeOf k + sizeOf y := by simp
          exact (ih s2 y (by omega) hwf (VTyMems_mem s2 es hty.2 (k, y) hp)
            (noSomeNoneMems_mem es hg (k, y) hp)).1
        exact ⟨rt_map s2 es hty.1 hIH, fun _ => by simp [encodeU]⟩
    | sVariant alts =>
      cases x <;> try (exfalso; revert hty; simp [VTyB]; done)
      case vVar i y =>
        simp only [VTyB] at hty
        simp only [shapeWF, Bool.and_eq_true, decide_eq_true_eq] at hwf
        simp only [noSomeNone] at hg
        obtain ⟨alt, hget, htyalt⟩ := VTyAlt_elim alts i y hty
        have hwfalt : shapeWF alt = true := shapeWFList_get alts i alt hwf.2 hget
        have hmem : alt ∈ alts := List.get?_mem hget
        have hsalt : sizeOf alt < sizeOf alts := List.sizeOf_lt_of_mem hmem
        have h1 : sizeOf (Shape.sVariant alts) = 1 + sizeOf alts := by simp
        have h2 : sizeOf (V.vVar i y) = 1 + sizeOf i + sizeOf y := by simp
        have IH := ih alt y (by omega) hwfalt htyalt hg
        exact ⟨rt_var alts i y alt hget hwf.1 IH.1, fun _ => by simp [encodeU]⟩

/-! ### C2: the round-trip property -/

/-- **Counterexample to C2 as stated.**  The well-typed present nested
optional `some none` (over `std::optional<std::optional<int>>`) encodes to
the null node, which decodes back to the *absent* state: decode ∘ encode
loses the value. -/
theorem roundtrip_cx :
    VTyB (.sOptional (.sOptional .sInt)) (.vSome .vNone) = true
    ∧ decodeU (.sOptional (.sOptional .sInt))
        (encodeU (.sOptional (.sOptional .sInt)) (.vSome .vNone)) = some .vNone
    ∧ (V.vNone = V.vSome V.vNone → False) := by
  refine ⟨by simp [VTyB], ?_, by simp⟩
  simp [encodeU, decodeU]

/-- **C2 (amended).**  For every shape category in the modelled universe
(primitives, strings, fixed bitsets, named enums, optionals, resizable
containers, string-keyed maps, tagged unions) with well-formed declarations
(duplicate-free enum name tables), and every well-typed value in which no
present optional directly contains an absent optional,
`decode (encode x) = some x`.  A present optional whose payload is an absent
optional encodes to null and decodes to the outer absent state, so it is
excluded. -/
theorem decode_encode_roundtrip (s : Shape) (x : V) (hwf : shapeWF s = true)
    (hty : VTyB s x = true) (hg : noSomeNone x = true) :
    decodeU s (encodeU s x) = some x :=
  (roundtrip_aux (sizeOf s + sizeOf x) s x le_rfl hwf hty hg).1

/-- Witness for C2 (amended): a tagged union of an int alternative and a
named-enum alternative, at the enum alternative's value `B`. -/
theorem decode_encode_roundtrip_witness :
    decodeU (.sVariant [.sInt, .sEnum ["A", "B", "C"]])
      (encodeU (.sVariant [.sInt, .sEnum ["A", "B", "C"]]) (.vVar 1 (.vEnum 1))) =
      some (.vVar 1 (.vEnum 1)) :=
  decode_encode_roundtrip (.sVariant [.sInt, .sEnum ["A", "B", "C"]]) (.vVar 1 (.vEnum 1))
    (by simp [shapeWF, shapeWFList, namesNodupB])
    (by simp [VTyB, VTyAlt])
    (by simp [noSomeNone])

end JsonDto
